import Mathlib

/-!
# Verification of the `vitals` health-check tool (erietz/vitals)

Shallow embedding, in Lean 4, of the core of `vitals.go`:

* the status-acceptance policy (`StatusRange`, `parseStatusRange`,
  `isStatusAcceptable`, the range-parsing loop and default-policy logic of
  `main`),
* URL construction (`constructURL`, including its possible index-out-of-range
  panic, modelled as `none`),
* the endpoint probe (`checkEndpoint`) over an abstract network oracle,
* the dispatcher (`processTarget`), whose channel nondeterminism is modelled
  by quantifying over the completion order of the jobs,
* the counting-semaphore admission gate as a small-step transition system,
* the result aggregation of `printJSONResults`,
* the live progress renderer described in the specification (not present in
  the Go sources), modelled from the spec.

Machine integers of Go are modelled as `Int`, durations as `ℚ` (seconds),
Go's `(value, error)` returns as `Option`.
-/

namespace Vitals

/-- `StatusRange` represents a range of acceptable HTTP status codes
(struct `StatusRange` in vitals.go). -/
structure StatusRange where
  Min : Int
  Max : Int
deriving DecidableEq, Repr

/-- `true` for the characters `'0'`–`'9'`, as recognised by the `%d` verb of
`fmt.Sscanf`. -/
def isDigitChar (c : Char) : Bool :=
  '0' ≤ c && c ≤ '9'

/-- Consume a run of decimal digits from the front of the character list,
accumulating their value (the digit-reading part of the `%d` verb). -/
def scanDigits (acc : Nat) : List Char → Nat × List Char
  | [] => (acc, [])
  | c :: cs =>
    if isDigitChar c then scanDigits (acc * 10 + (c.toNat - '0'.toNat)) cs
    else (acc, c :: cs)

/-- The `%d` verb of `fmt.Sscanf`: skip leading spaces, read an optional sign
followed by at least one decimal digit, and return the integer together with
the unconsumed input; `none` when no integer is present. -/
def scanInt (s : List Char) : Option (Int × List Char) :=
  let s1 := s.dropWhile (fun c => c = ' ')
  match s1 with
  | [] => none
  | '-' :: rest =>
    match rest with
    | [] => none
    | c :: _ =>
      if isDigitChar c then
        let (n, r) := scanDigits 0 rest
        some (-(n : Int), r)
      else none
  | '+' :: rest =>
    match rest with
    | [] => none
    | c :: _ =>
      if isDigitChar c then
        let (n, r) := scanDigits 0 rest
        some ((n : Int), r)
      else none
  | c :: _ =>
    if isDigitChar c then
      let (n, r) := scanDigits 0 s1
      some ((n : Int), r)
    else none

/-- `parseStatusRange` parses a status range string like "200-299" via
`fmt.Sscanf(rangeStr, "%d-%d", &min, &max)`; Go's `(StatusRange, error)`
return is modelled as `Option StatusRange`. -/
def parseStatusRange (rangeStr : String) : Option StatusRange :=
  match scanInt rangeStr.data with
  | none => none
  | some (a, rest) =>
    match rest with
    | '-' :: rest2 =>
      match scanInt rest2 with
      | none => none
      | some (b, _) => some { Min := a, Max := b }
    | _ => none

/-- `isStatusAcceptable` checks if the status code is in the acceptable list
(`slices.Contains`) or inside any of the acceptable ranges. -/
def isStatusAcceptable (status : Int) (codes : List Int) (ranges : List StatusRange) : Bool :=
  codes.contains status ||
    ranges.any (fun r => decide (r.Min ≤ status) && decide (status ≤ r.Max))

/-- The range-parsing loop of `main` (vitals.go lines 741–750): each string is
fed to `parseStatusRange`; on error the string is skipped (`continue`, after a
warning on stderr) and the loop proceeds with the remaining strings. -/
def parseStatusRanges (rangeStrs : List String) : List StatusRange :=
  go rangeStrs []
where
  /-- The loop body: `statusRanges = append(statusRanges, r)` on success,
  `continue` on error. -/
  go : List String → List StatusRange → List StatusRange
    | [], acc => acc
    | s :: rest, acc =>
      match parseStatusRange s with
      | none => go rest acc
      | some r => go rest (acc ++ [r])

/-- The defaulting step of `main` (vitals.go lines 752–755): if no status
codes and no (successfully parsed) status ranges are configured, the code
list becomes `[200]`. Returns the effective `(codes, ranges)` pair. -/
def defaultPolicy (codes : List Int) (ranges : List StatusRange) : List Int × List StatusRange :=
  if codes.length = 0 ∧ ranges.length = 0 then ([200], ranges) else (codes, ranges)

/-! ### Status-acceptance theorems -/

theorem contains_eq_mem (codes : List Int) (s : Int) :
    codes.contains s = decide (s ∈ codes) := by
  by_cases h : s ∈ codes <;> simp [h]

/-- C1: `isStatusAcceptable s codes ranges` is true iff `s` equals some entry
of `codes` or lies inside some range of `ranges` (inclusively); in particular
for codes = [200, 201] and ranges = [[500,599]] it accepts 200, rejects 404
and accepts 503. -/
theorem isStatusAcceptable_iff (s : Int) (codes : List Int) (ranges : List StatusRange) :
    (isStatusAcceptable s codes ranges = true ↔
      s ∈ codes ∨ ∃ r ∈ ranges, r.Min ≤ s ∧ s ≤ r.Max)
    ∧ isStatusAcceptable 200 [200, 201] [⟨500, 599⟩] = true
    ∧ isStatusAcceptable 404 [200, 201] [⟨500, 599⟩] = false
    ∧ isStatusAcceptable 503 [200, 201] [⟨500, 599⟩] = true := by
  refine ⟨?_, by decide, by decide, by decide⟩
  simp [isStatusAcceptable, contains_eq_mem, List.any_eq_true]

theorem parseStatusRanges_go_eq (rangeStrs : List String) (acc : List StatusRange) :
    parseStatusRanges.go rangeStrs acc = acc ++ rangeStrs.filterMap parseStatusRange := by
  induction rangeStrs generalizing acc with
  | nil => simp [parseStatusRanges.go]
  | cons s rest ih =>
    simp only [parseStatusRanges.go]
    cases h : parseStatusRange s with
    | none => simp [h, ih, List.filterMap_cons]
    | some r => simp [h, ih, List.filterMap_cons]

/-- C6: the range-parsing loop drops exactly the strings that fail to parse
and keeps, in order, the ranges of the strings that do parse; a malformed
string (such as "200:299") never aborts the processing of later strings. -/
theorem parseStatusRanges_drops_malformed :
    (∀ rangeStrs : List String,
      parseStatusRanges rangeStrs = rangeStrs.filterMap parseStatusRange)
    ∧ parseStatusRanges ["200:299", "500-599", "abc-def", "100-199"] =
        [⟨500, 599⟩, ⟨100, 199⟩] := by
  constructor
  · intro rangeStrs
    simpa using parseStatusRanges_go_eq rangeStrs []
  · decide

/-- C4: when no explicit status codes are configured and no range string
parses, the effective policy produced by `main`'s defaulting step accepts
exactly the status code 200. -/
theorem defaultPolicy_only_200 (rangeStrs : List String) (s : Int)
    (h : parseStatusRanges rangeStrs = []) :
    (isStatusAcceptable s (defaultPolicy [] (parseStatusRanges rangeStrs)).1
      (defaultPolicy [] (parseStatusRanges rangeStrs)).2 = true) ↔ s = 200 := by
  rw [h]
  simp [defaultPolicy, isStatusAcceptable, contains_eq_mem]

theorem defaultPolicy_only_200_witness :
    parseStatusRanges ["200:299"] = [] ∧
    ((isStatusAcceptable 200 (defaultPolicy [] (parseStatusRanges ["200:299"])).1
        (defaultPolicy [] (parseStatusRanges ["200:299"])).2 = true) ↔ (200 : Int) = 200) ∧
    ((isStatusAcceptable 404 (defaultPolicy [] (parseStatusRanges ["200:299"])).1
        (defaultPolicy [] (parseStatusRanges ["200:299"])).2 = true) ↔ (404 : Int) = 200) :=
  ⟨by decide, defaultPolicy_only_200 ["200:299"] 200 (by decide),
    defaultPolicy_only_200 ["200:299"] 404 (by decide)⟩

/-- C5 counterexample: `parseStatusRange` happily constructs an inverted
range — "500-400" parses without error to `{Min := 500, Max := 400}`, whose
`Min` exceeds its `Max`. -/
theorem parseStatusRange_mk_inverted :
    parseStatusRange "500-400" = some ⟨500, 400⟩ ∧ ¬((500 : Int) ≤ 400) := by
  exact ⟨by decide, by decide⟩

/-- C5 (amended): construction does not validate ordering, so inverted ranges
can enter the policy; however an inverted range (`Max < Min`) matches no
status code, so it never causes a spurious acceptance — every policy, also
one mixing valid and inverted ranges, evaluates exactly as if its inverted
ranges were absent. -/
theorem inverted_ranges_accept_nothing (s : Int) (codes : List Int)
    (ranges : List StatusRange) :
    isStatusAcceptable s codes ranges
      = isStatusAcceptable s codes (ranges.filter (fun r => decide (r.Min ≤ r.Max))) := by
  simp only [isStatusAcceptable]
  congr 1
  induction ranges with
  | nil => rfl
  | cons r rs ih =>
    simp only [List.filter_cons]
    by_cases hk : r.Min ≤ r.Max
    · simp [hk, List.any_cons, ih]
    · have hp : (decide (r.Min ≤ s) && decide (s ≤ r.Max)) = false := by
        by_cases h1 : r.Min ≤ s
        · have h2 : ¬(s ≤ r.Max) := by omega
          simp [h1, h2]
        · simp [h1]
      simp [hk, List.any_cons, hp, ih]

/-! ### URL construction -/

/-- `constructURL` builds the full URL from base URL and endpoint (vitals.go
lines 293–301). The Go condition `endpoint[0] != '/' &&
baseURL[len(baseURL)-1] != '/'` short-circuits, so `baseURL[len(baseURL)-1]`
is evaluated — and panics with an index-out-of-range on an empty `baseURL` —
exactly when the endpoint is non-empty and does not begin with `'/'`. The
panic is modelled as `none`. -/
def constructURL (baseURL endpoint : String) : Option String :=
  if endpoint = "" then some baseURL
  else if endpoint.data.head? ≠ some '/' then
    if baseURL = "" then none
    else if baseURL.data.getLast? ≠ some '/' then some (baseURL ++ "/" ++ endpoint)
    else some (baseURL ++ endpoint)
  else some (baseURL ++ endpoint)

theorem constructURL_isSome_of_ne (baseURL endpoint : String) (hb : baseURL ≠ "") :
    (constructURL baseURL endpoint).isSome = true := by
  unfold constructURL
  by_cases he : endpoint = "" <;>
    by_cases hh : endpoint.data.head? = some '/' <;>
      by_cases hl : baseURL.data.getLast? = some '/' <;>
        simp [he, hh, hl, hb]

/-- C10: with a non-empty base URL, `constructURL` is total and returns the
base URL for an empty endpoint, `baseURL ++ "/" ++ endpoint` when the
endpoint does not begin with `'/'` and the base URL does not end with `'/'`,
and `baseURL ++ endpoint` otherwise; the precondition is necessary — with an
empty base URL and a non-empty endpoint not beginning with `'/'`, the code
indexes out of range (modelled as `none`). -/
theorem constructURL_cases :
    (∀ baseURL endpoint : String, baseURL ≠ "" →
      (endpoint = "" → constructURL baseURL endpoint = some baseURL) ∧
      (endpoint ≠ "" → endpoint.data.head? ≠ some '/' →
        baseURL.data.getLast? ≠ some '/' →
        constructURL baseURL endpoint = some (baseURL ++ "/" ++ endpoint)) ∧
      (endpoint ≠ "" →
        (endpoint.data.head? = some '/' ∨ baseURL.data.getLast? = some '/') →
        constructURL baseURL endpoint = some (baseURL ++ endpoint)))
    ∧ (∀ endpoint : String, endpoint ≠ "" → endpoint.data.head? ≠ some '/' →
        constructURL "" endpoint = none) := by
  constructor
  · intro baseURL endpoint hb
    refine ⟨fun he => by simp [constructURL, he], fun he h1 h2 => by
      simp [constructURL, he, h1, h2, hb], fun he hor => ?_⟩
    rcases hor with h | h
    · simp [constructURL, he, h]
    · by_cases hh : endpoint.data.head? = some '/' <;>
        simp [constructURL, he, hh, h, hb]
  · intro endpoint he h1
    simp [constructURL, he, h1]

theorem constructURL_cases_witness :
    constructURL "http://x" "health" = some "http://x/health" ∧
    constructURL "" "health" = none := by
  constructor
  · have := (constructURL_cases.1 "http://x" "health" (by decide)).2.1
      (by decide) (by decide) (by decide)
    simpa using this
  · exact constructURL_cases.2 "health" (by decide) (by decide)

/-! ### The endpoint probe -/

/-- `TargetConfig` — the fields of the Go struct used by the probe and
dispatcher core. Headers (a Go map) are modelled as an association list;
they are attached to the request but never inspected by the core logic. -/
structure TargetConfig where
  Name : String := ""
  BaseURLs : List String := []
  Endpoints : List String := []
  Headers : List (String × String) := []
  StatusCodes : List Int := []
  StatusRanges : List String := []
deriving DecidableEq, Repr, Inhabited

/-- `EndpointResult` represents the result of checking a single endpoint.
Fields start at their Go zero values (`StatusCode = 0`, `Error = nil`, …)
and are filled in by `checkEndpoint`. The duration is in seconds. -/
structure EndpointResult where
  URL : String := ""
  StatusCode : Int := 0
  ResponseBody : String := ""
  Error : Option String := none
  Duration : ℚ := 0
  Success : Bool := false
deriving DecidableEq, Repr, Inhabited

/-- Outcome of the HTTP layer for one URL, abstracting `http.NewRequest`,
`client.Do` and `io.ReadAll` in `checkEndpoint`: request construction can
fail (before any network traffic), the transport can fail after some elapsed
time, or a response arrives carrying a status code, an elapsed time, and a
body whose read either succeeds with the body text or fails. -/
inductive NetOutcome where
  | newRequestError (msg : String)
  | doError (msg : String) (elapsed : ℚ)
  | resp (status : Int) (elapsed : ℚ) (readResult : Except String String)
deriving Repr

/-- `checkEndpoint` (vitals.go lines 244–290) over an abstract network
oracle `net`. Field assignments follow the Go code: a request-construction
error leaves duration at zero; a transport error records the elapsed
duration; a received response always records status code and duration, and
then a body-read failure sets the error (leaving `ResponseBody` empty and
`Success` false) while a successful read sets the body and computes
`Success` via `isStatusAcceptable`. The `none` result models the
index-out-of-range panic of `constructURL`. -/
def checkEndpoint (net : String → NetOutcome) (target : TargetConfig)
    (statusRanges : List StatusRange) (baseURL endpoint : String) :
    Option EndpointResult :=
  match constructURL baseURL endpoint with
  | none => none
  | some url =>
    match net url with
    | .newRequestError msg =>
      some { URL := url, Error := some ("error creating request: " ++ msg) }
    | .doError msg d =>
      some { URL := url, Error := some msg, Duration := d }
    | .resp status d readResult =>
      match readResult with
      | .error msg =>
        some { URL := url, StatusCode := status, Duration := d,
               Error := some ("error reading response body: " ++ msg) }
      | .ok body =>
        some { URL := url, StatusCode := status, Duration := d,
               ResponseBody := body,
               Success := isStatusAcceptable status target.StatusCodes statusRanges }

/-- A network in which every URL answers 200 but the body read fails. -/
def badBodyNet : String → NetOutcome :=
  fun _ => .resp 200 1 (.error "unexpected EOF")

/-- A network in which every URL answers 200 with body "ok". -/
def okNet : String → NetOutcome :=
  fun _ => .resp 200 1 (.ok "ok")

/-- C3 counterexample: when a response is received but reading its body
fails, the completed result carries BOTH a non-nil error and a non-zero
status code — the two are not mutually exclusive. -/
theorem checkEndpoint_both_error_and_status :
    checkEndpoint badBodyNet {} [] "http://x" "health" =
      some { URL := "http://x/health", StatusCode := 200, Duration := 1,
             Error := some "error reading response body: unexpected EOF" } ∧
    (checkEndpoint badBodyNet {} [] "http://x" "health").any
      (fun r => r.Error.isSome && decide (r.StatusCode ≠ 0)) = true := by
  exact ⟨by decide, by decide⟩

/-- C3 (amended): for every completed job, at least one of {error non-nil,
status code non-zero} holds (assuming the transport only ever delivers
non-zero status codes, as real HTTP does), and both hold at once exactly
when a response was received but reading its body failed; in every other
completed case the two are mutually exclusive. -/
theorem checkEndpoint_error_status_cases (net : String → NetOutcome)
    (target : TargetConfig) (statusRanges : List StatusRange)
    (baseURL endpoint : String) (res : EndpointResult)
    (hres : checkEndpoint net target statusRanges baseURL endpoint = some res)
    (hstatus : ∀ url s d rr, net url = .resp s d rr → s ≠ 0) :
    (res.Error.isSome = true ∨ res.StatusCode ≠ 0) ∧
    ((res.Error.isSome = true ∧ res.StatusCode ≠ 0) ↔
      ∃ url s d msg, constructURL baseURL endpoint = some url ∧
        net url = .resp s d (.error msg)) := by
  cases hc : constructURL baseURL endpoint with
  | none => simp [checkEndpoint, hc] at hres
  | some url =>
    cases hn : net url with
    | newRequestError msg =>
      simp only [checkEndpoint, hc, hn, Option.some.injEq] at hres
      subst hres
      refine ⟨Or.inl rfl, ?_⟩
      constructor
      · rintro ⟨_, h⟩; exact absurd rfl h
      · rintro ⟨url', s, d, msg', hc', hn'⟩
        injection hc' with h
        subst h
        rw [hn] at hn'
        exact absurd hn' (by simp)
    | doError msg d =>
      simp only [checkEndpoint, hc, hn, Option.some.injEq] at hres
      subst hres
      refine ⟨Or.inl rfl, ?_⟩
      constructor
      · rintro ⟨_, h⟩; exact absurd rfl h
      · rintro ⟨url', s, d', msg', hc', hn'⟩
        injection hc' with h
        subst h
        rw [hn] at hn'
        exact absurd hn' (by simp)
    | resp status d readResult =>
      have hs : status ≠ 0 := hstatus url status d readResult hn
      cases hrr : readResult with
      | error msg =>
        rw [hrr] at hn
        simp only [checkEndpoint, hc, hn, Option.some.injEq] at hres
        subst hres
        exact ⟨Or.inl rfl, by
          constructor
          · intro _; exact ⟨url, status, d, msg, rfl, hn⟩
          · intro _; exact ⟨rfl, hs⟩⟩
      | ok body =>
        rw [hrr] at hn
        simp only [checkEndpoint, hc, hn, Option.some.injEq] at hres
        subst hres
        refine ⟨Or.inr hs, ?_⟩
        constructor
        · rintro ⟨h, _⟩; exact absurd h (by simp)
        · rintro ⟨url', s, d', msg', hc', hn'⟩
          injection hc' with h
          subst h
          rw [hn] at hn'
          have := (NetOutcome.resp.injEq _ _ _ _ _ _).mp hn'
          exact absurd this.2.2 (by simp)

theorem checkEndpoint_error_status_cases_witness :
    (Option.isSome (Option.some "error reading response body: unexpected EOF") = true ∨
      (200 : Int) ≠ 0) ∧
    ((Option.isSome (Option.some "error reading response body: unexpected EOF") = true ∧
        (200 : Int) ≠ 0) ↔
      ∃ url s d msg, constructURL "http://x" "health" = some url ∧
        badBodyNet url = .resp s d (.error msg)) := by
  have h := checkEndpoint_error_status_cases badBodyNet {} [] "http://x" "health"
    { URL := "http://x/health", StatusCode := 200, Duration := 1,
      Error := some "error reading response body: unexpected EOF" }
    (by decide)
    (by intro url s d rr h
        have h' : (200 : Int) = s := ((NetOutcome.resp.injEq _ _ _ _ _ _).mp h).1
        omega)
  exact h

/-! ### The dispatcher -/

/-- The (base URL, endpoint) pairs of a target, in the order the two nested
loops of `processTarget` spawn their goroutines (outer loop over base URLs,
inner loop over endpoints). -/
def jobs (target : TargetConfig) : List (String × String) :=
  target.BaseURLs.flatMap (fun b => target.Endpoints.map (fun e => (b, e)))

theorem pairs_length (bs es : List String) :
    (bs.flatMap (fun b => es.map (fun e => (b, e)))).length = bs.length * es.length := by
  induction bs with
  | nil => simp
  | cons b bs ih => simp [ih]; ring

theorem jobs_length (target : TargetConfig) :
    (jobs target).length = target.BaseURLs.length * target.Endpoints.length :=
  pairs_length _ _

/-- The collection loop of `processTarget`: pop one result per spawned job
from the channel (`for range resultsCount { results = append(results,
<-resultsChan) }`); a `none` — a goroutine that panicked and will never
send — poisons the collection. -/
def collectJobs (f : String × String → Option EndpointResult) :
    List (String × String) → Option (List EndpointResult)
  | [] => some []
  | j :: js =>
    match f j, collectJobs f js with
    | some r, some rs => some (r :: rs)
    | _, _ => none

theorem collectJobs_eq_map (f : String × String → Option EndpointResult) :
    ∀ l : List (String × String), (∀ a ∈ l, (f a).isSome = true) →
      collectJobs f l = some (l.map (fun a => (f a).getD default))
  | [], _ => rfl
  | a :: as, hl => by
    have ha := hl a (by simp)
    cases hfa : f a with
    | none => rw [hfa] at ha; simp at ha
    | some b =>
      have hrest := collectJobs_eq_map f as (fun x hx => hl x (by simp [hx]))
      simp [collectJobs, hfa, hrest]

theorem checkEndpoint_isSome (net : String → NetOutcome) (target : TargetConfig)
    (statusRanges : List StatusRange) (baseURL endpoint : String) (hb : baseURL ≠ "") :
    (checkEndpoint net target statusRanges baseURL endpoint).isSome = true := by
  have h := constructURL_isSome_of_ne baseURL endpoint hb
  cases hc : constructURL baseURL endpoint with
  | none => rw [hc] at h; simp at h
  | some url =>
    cases hn : net url with
    | newRequestError msg => simp [checkEndpoint, hc, hn]
    | doError msg d => simp [checkEndpoint, hc, hn]
    | resp s d rr => cases rr <;> simp [checkEndpoint, hc, hn]

/-- `processTarget` (vitals.go lines 215–241): spawn one goroutine per
(base URL, endpoint) pair — each sends its `checkEndpoint` result on a
channel buffered to `len(BaseURLs) * len(Endpoints)` — then pop exactly that
many results from the channel. The channel's nondeterministic delivery order
is modelled by `order`, an arbitrary permutation of `jobs target`; the
semaphore (`_sem`, `none` when the concurrency ceiling is 0) only delays
workers, never changes which results are delivered, so it does not enter the
collected list (its gating behaviour is the transition system `GateStep`
below). An overall `none` models a panicking goroutine. -/
def processTarget (net : String → NetOutcome) (target : TargetConfig)
    (statusRanges : List StatusRange) (_sem : Option Nat)
    (order : List (String × String)) : Option (List EndpointResult) :=
  collectJobs (fun job => checkEndpoint net target statusRanges job.1 job.2) order

/-- C2: for every completion order of the channel (any permutation of the
jobs) and every concurrency ceiling, `processTarget` collects exactly
`len(BaseURLs) * len(Endpoints)` results — one per (base URL, endpoint)
pair, never fewer and never more (the base URLs are required to be non-empty
strings so that no goroutine panics inside `constructURL`). -/
theorem processTarget_counts (net : String → NetOutcome) (target : TargetConfig)
    (statusRanges : List StatusRange) (sem : Option Nat)
    (order : List (String × String))
    (hperm : order.Perm (jobs target))
    (hbase : ∀ b ∈ target.BaseURLs, b ≠ "") :
    ∃ results, processTarget net target statusRanges sem order = some results ∧
      results.length = target.BaseURLs.length * target.Endpoints.length ∧
      results.Perm ((jobs target).map (fun job =>
        (checkEndpoint net target statusRanges job.1 job.2).getD default)) := by
  have hsome : ∀ job ∈ order,
      (checkEndpoint net target statusRanges job.1 job.2).isSome = true := by
    intro job hj
    have hjj : job ∈ jobs target := hperm.mem_iff.mp hj
    have hb : job.1 ∈ target.BaseURLs := by
      simp only [jobs, List.mem_flatMap, List.mem_map] at hjj
      obtain ⟨b, hbmem, e, hemem, hbe⟩ := hjj
      rw [← hbe]
      exact hbmem
    exact checkEndpoint_isSome net target statusRanges job.1 job.2 (hbase job.1 hb)
  have hcollect := collectJobs_eq_map
    (fun job => checkEndpoint net target statusRanges job.1 job.2) order hsome
  refine ⟨_, hcollect, ?_, ?_⟩
  · rw [List.length_map, hperm.length_eq, jobs_length]
  · exact hperm.map _

/-- C2 counterexample: the claim fails without a restriction on the base
URLs — for the target with the single base URL `""` and the single endpoint
`"x"` (so `B × E = 1`), the lone goroutine panics on the out-of-range index
inside `constructURL`, the dispatcher never receives a result, and no list
of `B × E = 1` results is produced (the run is `none`, not `some` of any
list). -/
theorem processTarget_empty_base :
    processTarget okNet { BaseURLs := [""], Endpoints := ["x"] } [] none
      (jobs { BaseURLs := [""], Endpoints := ["x"] }) = none := by
  decide

/-- A concrete two-job target used by witnesses. -/
def twoTarget : TargetConfig :=
  { BaseURLs := ["http://a", "http://b"], Endpoints := ["/x"] }

theorem processTarget_counts_witness :
    ∃ results, processTarget okNet twoTarget [] (some 1)
        [("http://b", "/x"), ("http://a", "/x")] = some results ∧
      results.length = twoTarget.BaseURLs.length * twoTarget.Endpoints.length ∧
      results.Perm ((jobs twoTarget).map (fun job =>
        (checkEndpoint okNet twoTarget [] job.1 job.2).getD default)) :=
  processTarget_counts okNet twoTarget [] (some 1)
    [("http://b", "/x"), ("http://a", "/x")] (by decide) (by decide)

/-! ### The admission gate -/

/-- Phase of one dispatcher goroutine with respect to the admission gate:
not yet past `sem <- struct{}{}`; currently executing its network call (past
the acquire, before the deferred release); or finished (release executed). -/
inductive JobPhase where
  | pending
  | inFlight
  | done
deriving DecidableEq, Repr

/-- Number of goroutines currently past the admission gate. -/
def inFlightCount (l : List JobPhase) : Nat :=
  l.countP (fun p => decide (p = JobPhase.inFlight))

/-- One scheduling step of `processTarget`'s goroutines under a semaphore of
capacity `cap` (vitals.go lines 219–231 and 700–704; `cap = none` models
`sem == nil`, the ceiling-0 / unlimited case). A pending goroutine may pass
the gate only when fewer than `cap` goroutines are in flight — a send on a
full buffered channel blocks — and with no semaphore it may always start; an
in-flight goroutine may finish, which releases its slot. -/
inductive GateStep (cap : Option Nat) : List JobPhase → List JobPhase → Prop
  | start (l₁ l₂ : List JobPhase)
      (hcap : ∀ c, cap = some c → inFlightCount (l₁ ++ JobPhase.pending :: l₂) < c) :
      GateStep cap (l₁ ++ JobPhase.pending :: l₂) (l₁ ++ JobPhase.inFlight :: l₂)
  | finish (l₁ l₂ : List JobPhase) :
      GateStep cap (l₁ ++ JobPhase.inFlight :: l₂) (l₁ ++ JobPhase.done :: l₂)

/-- Goroutine-phase configurations reachable from the start of
`processTarget`, where one goroutine exists per (base URL, endpoint) job and
none has reached the gate yet. -/
def GateReach (cap : Option Nat) (target : TargetConfig) (l : List JobPhase) : Prop :=
  Relation.ReflTransGen (GateStep cap)
    (List.replicate (jobs target).length JobPhase.pending) l

theorem inFlightCount_replicate_pending (n : Nat) :
    inFlightCount (List.replicate n JobPhase.pending) = 0 := by
  induction n with
  | zero => rfl
  | succ n ih =>
    simp only [inFlightCount] at ih
    simp [List.replicate_succ, inFlightCount, List.countP_cons, ih]

theorem gateStep_none_cons (x : JobPhase) {l l' : List JobPhase}
    (h : GateStep none l l') : GateStep none (x :: l) (x :: l') := by
  cases h with
  | start l₁ l₂ hcap =>
    exact GateStep.start (x :: l₁) l₂ (by intro c hc; cases hc)
  | finish l₁ l₂ => exact GateStep.finish (x :: l₁) l₂

theorem gateReach_none_cons (x : JobPhase) {l l' : List JobPhase}
    (h : Relation.ReflTransGen (GateStep none) l l') :
    Relation.ReflTransGen (GateStep none) (x :: l) (x :: l') := by
  induction h with
  | refl => exact .refl
  | tail hsteps hstep ih => exact .tail ih (gateStep_none_cons x hstep)

theorem unbounded_all_inflight (n : Nat) :
    Relation.ReflTransGen (GateStep none)
      (List.replicate n JobPhase.pending) (List.replicate n JobPhase.inFlight) := by
  induction n with
  | zero => exact .refl
  | succ n ih =>
    have h1 : GateStep none (List.replicate (n + 1) JobPhase.pending)
        (JobPhase.inFlight :: List.replicate n JobPhase.pending) :=
      GateStep.start [] (List.replicate n JobPhase.pending)
        (by intro c hc; cases hc)
    exact .head h1 (gateReach_none_cons JobPhase.inFlight ih)

/-- C7: with a semaphore of capacity `C > 0`, no reachable configuration of
`processTarget`'s goroutines ever has more than `C` of them past the
admission gate; with no semaphore (concurrency ceiling 0) the configuration
in which all `B × E` goroutines are in flight simultaneously is reachable. -/
theorem gate_bounds_inflight :
    (∀ (cap : Nat) (target : TargetConfig) (l : List JobPhase), 0 < cap →
      GateReach (some cap) target l → inFlightCount l ≤ cap)
    ∧ (∀ target : TargetConfig,
        GateReach none target (List.replicate (jobs target).length JobPhase.inFlight)) := by
  constructor
  · intro cap target l hpos hreach
    induction hreach with
    | refl => rw [inFlightCount_replicate_pending]; exact Nat.zero_le _
    | tail hsteps hstep ih =>
      cases hstep with
      | start l₁ l₂ hcap =>
        have h := hcap _ rfl
        simp only [inFlightCount, List.countP_append, List.countP_cons] at h ⊢
        simp at h ⊢
        omega
      | finish l₁ l₂ =>
        simp only [inFlightCount, List.countP_append, List.countP_cons] at ih ⊢
        simp at ih ⊢
        omega
  · intro target
    exact unbounded_all_inflight (jobs target).length

theorem gate_bounds_inflight_witness :
    inFlightCount [JobPhase.inFlight, JobPhase.pending] ≤ 1 ∧
    GateReach none twoTarget (List.replicate (jobs twoTarget).length JobPhase.inFlight) := by
  constructor
  · refine gate_bounds_inflight.1 1 twoTarget [JobPhase.inFlight, JobPhase.pending]
      (by decide) ?_
    have hinit : List.replicate (jobs twoTarget).length JobPhase.pending
        = [JobPhase.pending, JobPhase.pending] := rfl
    unfold GateReach
    rw [hinit]
    refine Relation.ReflTransGen.single ?_
    exact GateStep.start [] [JobPhase.pending]
      (by intro c hc; injection hc with h; subst h; decide)
  · exact gate_bounds_inflight.2 twoTarget

/-! ### Result aggregation -/

/-- `JSONSummary` contains summary statistics for a target. -/
structure JSONSummary where
  Total : Nat
  Successful : Nat
  Failed : Nat
  AvgDuration : ℚ
deriving DecidableEq, Repr

/-- The per-result counting step of the loop in `printJSONResults`: an error
increments `failed`; otherwise `Success` decides between `successful` and
`failed`; every result's duration is added to `totalDuration`. The
accumulator is `(successful, failed, totalDuration)`. -/
def aggStep (acc : Nat × Nat × ℚ) (r : EndpointResult) : Nat × Nat × ℚ :=
  match r.Error with
  | some _ => (acc.1, acc.2.1 + 1, acc.2.2 + r.Duration)
  | none =>
    if r.Success then (acc.1 + 1, acc.2.1, acc.2.2 + r.Duration)
    else (acc.1, acc.2.1 + 1, acc.2.2 + r.Duration)

/-- The summary computation of `printJSONResults` (vitals.go lines 587–645):
count successes and failures, add up the durations, and divide by the total
only when it is positive — `avgDuration` stays zero on an empty result
set. -/
def printJSONResults (results : List EndpointResult) : JSONSummary :=
  let acc := results.foldl aggStep (0, 0, 0)
  let total := acc.1 + acc.2.1
  { Total := total, Successful := acc.1, Failed := acc.2.1,
    AvgDuration := if 0 < total then acc.2.2 / (total : ℚ) else 0 }

theorem aggStep_foldl (results : List EndpointResult) :
    ∀ (s f : Nat) (d : ℚ),
      (results.foldl aggStep (s, f, d)).1 + (results.foldl aggStep (s, f, d)).2.1
          = s + f + results.length ∧
      (results.foldl aggStep (s, f, d)).2.2
          = d + (results.map EndpointResult.Duration).sum := by
  induction results with
  | nil => intro s f d; simp
  | cons r rs ih =>
    intro s f d
    simp only [List.foldl_cons, List.map_cons, List.sum_cons, List.length_cons]
    cases hr : r.Error with
    | some msg =>
      have h := ih s (f + 1) (d + r.Duration)
      simp only [aggStep, hr]
      refine ⟨?_, ?_⟩
      · rw [h.1]; ring
      · rw [h.2]; ring
    | none =>
      cases hsucc : r.Success with
      | true =>
        have h := ih (s + 1) f (d + r.Duration)
        simp only [aggStep, hr, hsucc, if_true]
        refine ⟨?_, ?_⟩
        · rw [h.1]; ring
        · rw [h.2]; ring
      | false =>
        have h := ih s (f + 1) (d + r.Duration)
        simp only [aggStep, hr, hsucc, Bool.false_eq_true, if_false]
        refine ⟨?_, ?_⟩
        · rw [h.1]; ring
        · rw [h.2]; ring

/-- C8: the aggregator's total equals successful + failed and equals the
number of results; the average duration is the duration sum divided by the
count; and the empty result set yields all-zero counts and a zero average
without dividing by zero. -/
theorem printJSONResults_summary (results : List EndpointResult) :
    (printJSONResults results).Total
        = (printJSONResults results).Successful + (printJSONResults results).Failed
    ∧ (printJSONResults results).Total = results.length
    ∧ (printJSONResults results).AvgDuration
        = (if 0 < results.length then
            (results.map EndpointResult.Duration).sum / (results.length : ℚ) else 0)
    ∧ printJSONResults [] = ⟨0, 0, 0, 0⟩ := by
  have h := aggStep_foldl results 0 0 0
  have h1 : (results.foldl aggStep (0, 0, 0)).1 + (results.foldl aggStep (0, 0, 0)).2.1
      = results.length := by
    rw [h.1]; ring
  have h2 : (results.foldl aggStep (0, 0, 0)).2.2
      = (results.map EndpointResult.Duration).sum := by
    rw [h.2]; ring
  refine ⟨rfl, ?_, ?_, by decide⟩
  · simp only [printJSONResults]
    exact h1
  · simp only [printJSONResults]
    rw [h1, h2]

/-! ### The live progress renderer (modelled from the spec)

The Go sources of this repository contain no live progress renderer; the
component below is modelled from the specification of ProgressRenderer
(spec §4.4): per-job terminal lines with fixed indices, a periodic redraw
tick, completion notifications from workers, and one final unconditional
flush pass after which the renderer stops and writes nothing more. -/

/-- Modelled from the spec: the state of one job's progress line — whether
the job has reached its terminal Complete state, and whether the line's
final glyph has been flushed to the terminal. A line that is not yet
Complete-and-flushed is redrawn (spinner or final glyph) on every pass. -/
structure JobLine where
  complete : Bool
  flushed : Bool
deriving DecidableEq, Repr

/-- Modelled from the spec: renderer state — one line per job (the line
index fixed at job creation, matching job emission order) plus whether the
renderer has stopped ticking. -/
structure RendererState where
  lines : List JobLine
  stopped : Bool
deriving DecidableEq, Repr

/-- Modelled from the spec: the renderer's inputs — a periodic redraw tick,
the completion of job `i` reported by its worker, and the final
unconditional flush pass triggered by the all-jobs-complete signal. -/
inductive REvent where
  | tick
  | jobComplete (i : Nat)
  | finalPass
deriving DecidableEq, Repr

/-- The completing worker's state write: mark line `i` complete. -/
def markComplete : List JobLine → Nat → List JobLine
  | [], _ => []
  | l :: ls, 0 => { l with complete := true } :: ls
  | l :: ls, n + 1 => l :: markComplete ls n

/-- A redraw pass over one line: a completed line now shows its final glyph
and counts as flushed; a pending line shows the next spinner glyph and
remains unflushed. -/
def redrawLine (l : JobLine) : JobLine :=
  if l.complete then { l with flushed := true } else l

/-- The number of terminal lines one redraw pass writes: every line not yet
Complete-and-flushed. -/
def unflushedCount (ls : List JobLine) : Nat :=
  ls.countP (fun l => !(l.complete && l.flushed))

/-- Modelled from the spec: one renderer transition, returning the next
state and the number of terminal lines written. After the renderer has
stopped, no event changes state or produces output. A tick redraws every
line not yet Complete-and-flushed; a worker completion marks its line
complete (terminal); the final pass flushes every line and stops the
ticker. -/
def rstep (s : RendererState) (e : REvent) : RendererState × Nat :=
  if s.stopped then (s, 0)
  else
    match e with
    | .tick => ({ s with lines := s.lines.map redrawLine }, unflushedCount s.lines)
    | .jobComplete i => ({ s with lines := markComplete s.lines i }, 0)
    | .finalPass =>
      ({ lines := s.lines.map (fun l => { l with flushed := true }), stopped := true },
        unflushedCount s.lines)

/-- Modelled from the spec: run the renderer over a sequence of events,
accumulating the total number of terminal lines written. -/
def rrun (s : RendererState) : List REvent → RendererState × Nat
  | [] => (s, 0)
  | e :: es => ((rrun (rstep s e).1 es).1, (rstep s e).2 + (rrun (rstep s e).1 es).2)

/-- Modelled from the spec: the initial renderer state — one placeholder
line per job, printed before dispatch begins; no job complete, no line
flushed, ticker running. -/
def rinit (n : Nat) : RendererState :=
  { lines := List.replicate n { complete := false, flushed := false }, stopped := false }

/-- Line `i` has reached the Complete state. -/
def lineComplete (s : RendererState) (i : Nat) : Bool :=
  (s.lines[i]?).any (fun l => l.complete)

theorem rstep_stopped_eq (s : RendererState) (e : REvent) (h : s.stopped = true) :
    rstep s e = (s, 0) := by
  simp [rstep, h]

theorem rrun_stopped_eq (es : List REvent) (s : RendererState) (h : s.stopped = true) :
    rrun s es = (s, 0) := by
  induction es with
  | nil => rfl
  | cons e es ih => simp [rrun, rstep_stopped_eq s e h, ih]

theorem markComplete_length (ls : List JobLine) (j : Nat) :
    (markComplete ls j).length = ls.length := by
  induction ls generalizing j with
  | nil => rfl
  | cons l ls ih => cases j <;> simp [markComplete, ih]

theorem markComplete_getElem (ls : List JobLine) (j k : Nat) :
    (markComplete ls j)[k]? =
      if k = j then ls[k]?.map (fun l => { l with complete := true }) else ls[k]? := by
  induction ls generalizing j k with
  | nil => simp [markComplete]
  | cons l ls ih =>
    cases j with
    | zero =>
      cases k with
      | zero => simp [markComplete]
      | succ k => simp [markComplete]
    | succ j =>
      cases k with
      | zero => simp [markComplete]
      | succ k => simpa [markComplete] using ih j k

theorem rstep_lines_length (s : RendererState) (e : REvent) :
    (rstep s e).1.lines.length = s.lines.length := by
  by_cases h : s.stopped = true
  · rw [rstep_stopped_eq s e h]
  · have h' : s.stopped = false := by simpa using h
    cases e <;> simp [rstep, h', markComplete_length]

theorem rrun_lines_length (es : List REvent) (s : RendererState) :
    (rrun s es).1.lines.length = s.lines.length := by
  induction es generalizing s with
  | nil => rfl
  | cons e es ih => simp only [rrun]; rw [ih, rstep_lines_length]

theorem rstep_stopped_false (s : RendererState) (e : REvent) (hst : s.stopped = false)
    (hne : e ≠ REvent.finalPass) : (rstep s e).1.stopped = false := by
  cases e with
  | tick => simp [rstep, hst]
  | jobComplete j => simp [rstep, hst]
  | finalPass => exact absurd rfl hne

theorem rrun_stopped_false (es : List REvent) (s : RendererState) (hst : s.stopped = false)
    (hne : REvent.finalPass ∉ es) : (rrun s es).1.stopped = false := by
  induction es generalizing s with
  | nil => exact hst
  | cons e es ih =>
    simp only [List.mem_cons, not_or] at hne
    simp only [rrun]
    exact ih _ (rstep_stopped_false s e hst (fun hh => hne.1 hh.symm)) hne.2

theorem rstep_complete_mono (s : RendererState) (e : REvent) (k : Nat)
    (h : lineComplete s k = true) : lineComplete (rstep s e).1 k = true := by
  by_cases hst : s.stopped = true
  · rw [rstep_stopped_eq s e hst]; exact h
  · have hst' : s.stopped = false := by simpa using hst
    cases hk : s.lines[k]? with
    | none => simp [lineComplete, hk] at h
    | some l =>
      simp only [lineComplete, hk, Option.any_some] at h
      cases e with
      | tick =>
        simp only [rstep, hst', Bool.false_eq_true, if_false, lineComplete,
          List.getElem?_map, hk]
        simp [redrawLine, h]
      | jobComplete j =>
        simp only [rstep, hst', Bool.false_eq_true, if_false, lineComplete,
          markComplete_getElem]
        by_cases hkj : k = j
        · subst hkj; simp [hk, h]
        · simp [hkj, hk, h]
      | finalPass =>
        simp only [rstep, hst', Bool.false_eq_true, if_false, lineComplete,
          List.getElem?_map, hk]
        simp [h]

theorem rrun_complete_mono (es : List REvent) (s : RendererState) (k : Nat)
    (h : lineComplete s k = true) : lineComplete (rrun s es).1 k = true := by
  induction es generalizing s with
  | nil => exact h
  | cons e es ih => simp only [rrun]; exact ih _ (rstep_complete_mono s e k h)

theorem rstep_jobComplete_sets (s : RendererState) (i : Nat) (hst : s.stopped = false)
    (hi : i < s.lines.length) :
    lineComplete (rstep s (REvent.jobComplete i)).1 i = true := by
  simp only [rstep, hst, Bool.false_eq_true, if_false, lineComplete,
    markComplete_getElem, List.getElem?_eq_getElem hi]
  simp

theorem rrun_completes (es : List REvent) (s : RendererState) (i : Nat)
    (hst : s.stopped = false) (hne : REvent.finalPass ∉ es)
    (hi : i < s.lines.length) (hmem : REvent.jobComplete i ∈ es) :
    lineComplete (rrun s es).1 i = true := by
  induction es generalizing s with
  | nil => simp at hmem
  | cons e es ih =>
    simp only [List.mem_cons, not_or] at hne
    simp only [rrun]
    rcases List.mem_cons.mp hmem with heq | hmem'
    · rw [← heq]
      exact rrun_complete_mono es _ i (rstep_jobComplete_sets s i hst hi)
    · refine ih _ (rstep_stopped_false s e hst (fun hh => hne.1 hh.symm)) hne.2 ?_ hmem'
      rw [rstep_lines_length]
      exact hi

theorem rrun_append (es es' : List REvent) (s : RendererState) :
    rrun s (es ++ es')
      = ((rrun (rrun s es).1 es').1, (rrun s es).2 + (rrun (rrun s es).1 es').2) := by
  induction es generalizing s with
  | nil => simp [rrun]
  | cons e es ih => simp [rrun, ih, Nat.add_assoc]

theorem bool_mono_le (g : Nat → Bool) (hmono : ∀ k, g k = true → g (k + 1) = true)
    (a b : Nat) (hab : a ≤ b) (ha : g a = true) : g b = true := by
  induction hab with
  | refl => exact ha
  | step h ih => exact hmono _ ih

theorem bool_mono_unique_flip (g : Nat → Bool) (hmono : ∀ k, g k = true → g (k + 1) = true)
    (h0 : g 0 = false) (N : Nat) (hN : g N = true) :
    ∃! k, g k = false ∧ g (k + 1) = true := by
  induction N with
  | zero => exact absurd hN (by simp [h0])
  | succ N ih =>
    by_cases hgN : g N = true
    · exact ih hgN
    · refine ⟨N, ⟨by simpa using hgN, hN⟩, ?_⟩
      intro y hy
      by_contra hne
      rcases Nat.lt_or_ge y N with hlt | hge
      · exact hgN (bool_mono_le g hmono (y + 1) N hlt hy.2)
      · have hy1 : N + 1 ≤ y := by omega
        have := bool_mono_le g hmono (N + 1) y hy1 hN
        rw [hy.1] at this
        cases this

theorem lineComplete_rinit (n i : Nat) : lineComplete (rinit n) i = false := by
  simp only [lineComplete, rinit, List.getElem?_replicate]
  by_cases h : i < n <;> simp [h]

theorem rrun_take_succ (E : List REvent) (s : RendererState) (k : Nat) :
    (rrun s (E.take (k + 1))).1 =
      match E[k]? with
      | none => (rrun s (E.take k)).1
      | some e => (rstep (rrun s (E.take k)).1 e).1 := by
  rw [List.take_succ]
  cases hEk : E[k]? with
  | none => simp
  | some e => rw [rrun_append]; simp [rrun]

/-- C9 (modelled from the spec): a job line's Complete state is terminal —
no renderer transition un-completes a complete line — and for every run in
which the workers deliver each job's completion and the final pass comes
last (after the all-jobs-complete signal): each line reaches Complete by a
single false-to-true transition (exactly once), after the final flush pass
no line remains unflushed, the renderer is stopped, and processing any
further events changes nothing and writes no output. -/
theorem renderer_complete_once_and_flushed :
    (∀ (s : RendererState) (e : REvent) (k : Nat),
      lineComplete s k = true → lineComplete (rstep s e).1 k = true)
    ∧ (∀ (n : Nat) (events : List REvent) (i : Nat), i < n →
        REvent.finalPass ∉ events →
        (∀ j, j < n → REvent.jobComplete j ∈ events) →
        (∀ l ∈ (rrun (rinit n) (events ++ [REvent.finalPass])).1.lines,
            l.complete = true ∧ l.flushed = true)
        ∧ (rrun (rinit n) (events ++ [REvent.finalPass])).1.stopped = true
        ∧ (∀ more, rrun (rrun (rinit n) (events ++ [REvent.finalPass])).1 more
            = ((rrun (rinit n) (events ++ [REvent.finalPass])).1, 0))
        ∧ (∃! k, lineComplete (rrun (rinit n)
              ((events ++ [REvent.finalPass]).take k)).1 i = false ∧
            lineComplete (rrun (rinit n)
              ((events ++ [REvent.finalPass]).take (k + 1))).1 i = true)) := by
  refine ⟨fun s e k h => rstep_complete_mono s e k h, ?_⟩
  intro n events i hi hnf hall
  have hrinit_stop : (rinit n).stopped = false := rfl
  have hrinit_len : (rinit n).lines.length = n := by simp [rinit]
  have hbstop : (rrun (rinit n) events).1.stopped = false :=
    rrun_stopped_false events (rinit n) hrinit_stop hnf
  have hblen : (rrun (rinit n) events).1.lines.length = n := by
    rw [rrun_lines_length]; exact hrinit_len
  have hbcomp : ∀ j, j < n → lineComplete (rrun (rinit n) events).1 j = true := by
    intro j hj
    exact rrun_completes events (rinit n) j hrinit_stop hnf
      (by rw [hrinit_len]; exact hj) (hall j hj)
  have hfull1 : (rrun (rinit n) (events ++ [REvent.finalPass])).1
      = (rstep (rrun (rinit n) events).1 REvent.finalPass).1 := by
    rw [rrun_append]; simp [rrun]
  have hstepfp : (rstep (rrun (rinit n) events).1 REvent.finalPass).1
      = { lines := (rrun (rinit n) events).1.lines.map
            (fun l => { l with flushed := true }),
          stopped := true } := by
    simp [rstep, hbstop]
  have hall1 : ∀ l ∈ (rrun (rinit n) (events ++ [REvent.finalPass])).1.lines,
      l.complete = true ∧ l.flushed = true := by
    rw [hfull1, hstepfp]
    intro l hl
    simp only [List.mem_map] at hl
    obtain ⟨bl, hbl, hbleq⟩ := hl
    obtain ⟨idx, hidx, hbidx⟩ := List.mem_iff_getElem.mp hbl
    have hidxn : idx < n := by rw [← hblen]; exact hidx
    have hlc := hbcomp idx hidxn
    simp only [lineComplete, List.getElem?_eq_getElem hidx, hbidx, Option.any_some] at hlc
    rw [← hbleq]
    exact ⟨hlc, rfl⟩
  have hstop : (rrun (rinit n) (events ++ [REvent.finalPass])).1.stopped = true := by
    rw [hfull1, hstepfp]
  have hflen : (rrun (rinit n) (events ++ [REvent.finalPass])).1.lines.length = n := by
    rw [rrun_lines_length]; exact hrinit_len
  refine ⟨hall1, hstop, fun more => rrun_stopped_eq more _ hstop, ?_⟩
  have hmono : ∀ k, lineComplete (rrun (rinit n)
      ((events ++ [REvent.finalPass]).take k)).1 i = true →
      lineComplete (rrun (rinit n)
      ((events ++ [REvent.finalPass]).take (k + 1))).1 i = true := by
    intro k hk
    rw [rrun_take_succ]
    cases hEk : (events ++ [REvent.finalPass])[k]? with
    | none => exact hk
    | some e => exact rstep_complete_mono _ e i hk
  have h0 : lineComplete (rrun (rinit n)
      ((events ++ [REvent.finalPass]).take 0)).1 i = false := by
    simp only [List.take_zero]
    exact lineComplete_rinit n i
  have hN : lineComplete (rrun (rinit n)
      ((events ++ [REvent.finalPass]).take (events ++ [REvent.finalPass]).length)).1 i
      = true := by
    rw [List.take_length]
    have hilt : i < (rrun (rinit n) (events ++ [REvent.finalPass])).1.lines.length := by
      rw [hflen]; exact hi
    have hmem := List.getElem_mem hilt
    have hc := (hall1 _ hmem).1
    simp only [lineComplete, List.getElem?_eq_getElem hilt, Option.any_some]
    exact hc
  exact bool_mono_unique_flip
    (fun k => lineComplete (rrun (rinit n)
      ((events ++ [REvent.finalPass]).take k)).1 i) hmono h0 _ hN

theorem renderer_complete_once_and_flushed_witness :
    lineComplete (rstep ⟨[{ complete := true, flushed := false }], false⟩ REvent.tick).1 0
        = true ∧
    ((∀ l ∈ (rrun (rinit 2) ([REvent.jobComplete 0, REvent.tick, REvent.jobComplete 1]
          ++ [REvent.finalPass])).1.lines, l.complete = true ∧ l.flushed = true)
      ∧ (rrun (rinit 2) ([REvent.jobComplete 0, REvent.tick, REvent.jobComplete 1]
          ++ [REvent.finalPass])).1.stopped = true
      ∧ (∀ more, rrun (rrun (rinit 2) ([REvent.jobComplete 0, REvent.tick,
            REvent.jobComplete 1] ++ [REvent.finalPass])).1 more
          = ((rrun (rinit 2) ([REvent.jobComplete 0, REvent.tick, REvent.jobComplete 1]
          ++ [REvent.finalPass])).1, 0))
      ∧ (∃! k, lineComplete (rrun (rinit 2) (([REvent.jobComplete 0, REvent.tick,
            REvent.jobComplete 1] ++ [REvent.finalPass]).take k)).1 0 = false ∧
          lineComplete (rrun (rinit 2) (([REvent.jobComplete 0, REvent.tick,
            REvent.jobComplete 1] ++ [REvent.finalPass]).take (k + 1))).1 0 = true)) := by
  constructor
  · exact renderer_complete_once_and_flushed.1
      ⟨[{ complete := true, flushed := false }], false⟩ REvent.tick 0 (by decide)
  · exact renderer_complete_once_and_flushed.2 2
      [REvent.jobComplete 0, REvent.tick, REvent.jobComplete 1] 0 (by decide)
      (by decide)
      (by intro j hj
          interval_cases j <;> decide)

end Vitals
